import Mathlib

/-!
Verification development for the ts-code-layout program (main.ts variant with
the traits kind / transfer / declare / persistance / pattern / name).

The embedding models JavaScript strings as lists of characters (a JS string is
a finite sequence of code units), JS numbers that hold ranks as natural
numbers with the explicit sentinel Number.MAX_SAFE_INTEGER = 2 ^ 53 - 1, and
the insertion-ordered JS Map as an association list with the replace-on-set
semantics of Map.prototype.set.  External collaborators (the ts-morph parser,
the RegExp engine, file input and output) appear as data carried by the model
types: a parsed node carries the values the parser accessors would return and
a compiled regular expression is carried as its match predicate.
-/

namespace TsCodeLayout

/-- JavaScript strings are modelled as lists of characters. -/
abbrev JsString := List Char

/-- Model of the whitespace class used by String.prototype.trim (the ASCII
whitespace characters; the exotic Unicode space code points do not occur in
the texts handled here). -/
def isJsWhitespace (c : Char) : Bool :=
  c = ' ' || c = '\t' || c = '\n' || c = '\r' || c = '\x0b' || c = '\x0c'

/-- Leading-whitespace removal, as in String.prototype.trimStart. -/
def trimStart (s : JsString) : JsString :=
  s.dropWhile isJsWhitespace

/-- Trailing-whitespace removal, as in String.prototype.trimEnd. -/
def trimEnd (s : JsString) : JsString :=
  (s.reverse.dropWhile isJsWhitespace).reverse

/-- Model of String.prototype.trim: remove whitespace at both ends. -/
def jsTrim (s : JsString) : JsString :=
  trimEnd (trimStart s)

/-- Model of String.prototype.substring: both index arguments are clamped
into the string, and they are swapped when the first exceeds the second. -/
def jsSubstring (s : JsString) (a b : Int) : JsString :=
  let len : Int := s.length
  let a1 := min (max a 0) len
  let b1 := min (max b 0) len
  let lo := (min a1 b1).toNat
  let hi := (max a1 b1).toNat
  (s.drop lo).take (hi - lo)

/-- Model of String.prototype.includes for the single character tested by
isMultiline. -/
def jsIncludesChar (s : JsString) (c : Char) : Bool :=
  s.contains c

/-- Number.MAX_SAFE_INTEGER, the sentinel rank used for values that are not
present in a configured rank table. -/
def maxSafeInteger : Nat := 2 ^ 53 - 1

/-- The enum Kind of main.ts. -/
inductive Kind where
  | Enumeration
  | TypeAlias
  | Interface
  | Variable
  | Class
  | Function
  | Header
  | Import
  | TypeImport
deriving DecidableEq, Repr

/-- The enum Persistance of main.ts. -/
inductive Persistance where
  | IsConstant
deriving DecidableEq, Repr

/-- The enum Transfer of main.ts. -/
inductive Transfer where
  | IsExported
deriving DecidableEq, Repr

/-- The enum Declaration of main.ts. -/
inductive Declaration where
  | IsDeclared
deriving DecidableEq, Repr

/-- The class Element of main.ts.  The TypeScript fields typed with an
undefined default are modelled as Option values, with none standing for the
undefined (not applicable) trait value. -/
structure Element where
  transfer : Option Transfer
  kind : Option Kind
  persistance : Option Persistance
  name : JsString
  text : JsString
  declaration : Option Declaration
deriving DecidableEq, Repr

/-- A compiled regular expression, carried as its match predicate: the RegExp
engine is an external collaborator, so only the observable behaviour of
RegExp.prototype.test on the element texts is modelled. -/
structure Pattern where
  test : JsString → Bool

/-- Map.prototype.set on the insertion-ordered association list: update the
value in place at an existing key, otherwise append the new key at the end
of the insertion order. -/
def mapSet {K : Type} [DecidableEq K] : List (K × Nat) → K → Nat → List (K × Nat)
  | [], k, v => [(k, v)]
  | q :: rest, k, v => if q.1 = k then (k, v) :: rest else q :: mapSet rest k v

/-- Map.prototype.get: lookup by key equality, none for an absent key. -/
def mapGet {K : Type} [DecidableEq K] : List (K × Nat) → K → Option Nat
  | [], _ => none
  | q :: rest, k => if q.1 = k then some q.2 else mapGet rest k

/-- TraitSortOrder.setParameters: every parameter is inserted with the
current map size as its rank. -/
def traitSetParameters {K : Type} [DecidableEq K] (parameters : List K) : List (K × Nat) :=
  parameters.foldl (fun m p => mapSet m p m.length) []

/-- TraitSortOrder.getRank: the rank stored for the element's trait value,
or Number.MAX_SAFE_INTEGER when the value is not a key of the map. -/
def TraitSortOrder.getRank {K : Type} [DecidableEq K] (m : List (K × Nat)) (key : K) : Nat :=
  (mapGet m key).getD maxSafeInteger

/-- One Map.prototype.set step of PatternSortOrder.setParameters: a null
parameter inserts the shared matchAllRegex object (modelled as the key
none, a single shared reference, so a second null replaces the stored rank
as Map.prototype.set does), while a pattern string compiles to a fresh
RegExp object, hence always appends a new key; the stored rank is the
current map size. -/
def patternSetStep (m : List (Option Pattern × Nat)) (p : Option Pattern) : List (Option Pattern × Nat) :=
  match p with
  | none =>
    if m.any (fun q => q.1.isNone) then
      m.map (fun q => if q.1.isNone then (none, m.length) else q)
    else
      m ++ [(none, m.length)]
  | some pat => m ++ [(some pat, m.length)]

/-- PatternSortOrder.setParameters over the whole parameter array. -/
def patternSetParameters (parameters : List (Option Pattern)) : List (Option Pattern × Nat) :=
  parameters.foldl patternSetStep []

/-- PatternSortOrder.getRank: scan the entries in insertion order, remember
the rank of the matchAllRegex entry, return the rank of the first other
regular expression that matches the key, and fall back to the recorded
match-all rank (initially Number.MAX_SAFE_INTEGER). -/
def PatternSortOrder.getRankAux (key : JsString) : List (Option Pattern × Nat) → Nat → Nat
  | [], matchAllRank => matchAllRank
  | (none, rank) :: rest, _ => PatternSortOrder.getRankAux key rest rank
  | (some pat, rank) :: rest, matchAllRank =>
    if pat.test key then rank else PatternSortOrder.getRankAux key rest matchAllRank

/-- PatternSortOrder.getRank applied to the element text accessed by the
configured trait accessor. -/
def PatternSortOrder.getRank (m : List (Option Pattern × Nat)) (key : JsString) : Nat :=
  PatternSortOrder.getRankAux key m maxSafeInteger

/-- MappedSortOrder.compare: rank1 === rank2 ? 0 : rank1 < rank2 ? -1 : 1. -/
def mappedCompare (rank1 rank2 : Nat) : Int :=
  if rank1 = rank2 then 0 else if rank1 < rank2 then -1 else 1

/-- Model of String.prototype.localeCompare, the comparison used by
NameSortOrder: a locale-consistent total order on strings, modelled as the
lexicographic order on character lists. -/
def localeCompare (s1 s2 : JsString) : Int :=
  if s1 < s2 then -1 else if s2 < s1 then 1 else 0

/-- The sort orders a configured comparator can carry: a TraitSortOrder over
one of the four enum traits, a PatternSortOrder over the element text, or
the NameSortOrder. -/
inductive SortOrderSpec where
  | traitKind (m : List (Option Kind × Nat))
  | traitTransfer (m : List (Option Transfer × Nat))
  | traitDeclaration (m : List (Option Declaration × Nat))
  | traitPersistance (m : List (Option Persistance × Nat))
  | pattern (m : List (Option Pattern × Nat))
  | name

/-- SortOrder.compare of the respective class: MappedSortOrder.compare on
the two ranks for the map-backed orders, localeCompare of the names for
NameSortOrder. -/
def SortOrderSpec.compare : SortOrderSpec → Element → Element → Int
  | .traitKind m, element1, element2 =>
    mappedCompare (TraitSortOrder.getRank m element1.kind) (TraitSortOrder.getRank m element2.kind)
  | .traitTransfer m, element1, element2 =>
    mappedCompare (TraitSortOrder.getRank m element1.transfer) (TraitSortOrder.getRank m element2.transfer)
  | .traitDeclaration m, element1, element2 =>
    mappedCompare (TraitSortOrder.getRank m element1.declaration) (TraitSortOrder.getRank m element2.declaration)
  | .traitPersistance m, element1, element2 =>
    mappedCompare (TraitSortOrder.getRank m element1.persistance) (TraitSortOrder.getRank m element2.persistance)
  | .pattern m, element1, element2 =>
    mappedCompare (PatternSortOrder.getRank m element1.text) (PatternSortOrder.getRank m element2.text)
  | .name, element1, element2 =>
    localeCompare element1.name element2.name

/-- The Comparator type of main.ts: a comparison function (carried as its
sort order) tagged with comparatorName and ignoreIfSingleLine. -/
structure Comparator where
  sortOrder : SortOrderSpec
  comparatorName : String
  ignoreIfSingleLine : Bool

/-- compareElements of main.ts.  The module-level comparisons array is
passed explicitly. -/
def compareElements (comparisons : List Comparator) (element1 element2 : Element)
    (useIgnoreIfSingleLine : Bool) : Int :=
  match comparisons with
  | [] => 0
  | comparator :: rest =>
    if useIgnoreIfSingleLine && comparator.ignoreIfSingleLine then
      compareElements rest element1 element2 useIgnoreIfSingleLine
    else
      let comparison := comparator.sortOrder.compare element1 element2
      if comparison ≠ 0 then comparison else compareElements rest element1 element2 useIgnoreIfSingleLine

/-- The first nonzero entry of a list of comparison results, 0 when every
entry is 0: the behaviour the specification ascribes to chain evaluation. -/
def firstNonzero : List Int → Int
  | [] => 0
  | x :: rest => if x ≠ 0 then x else firstNonzero rest

/-- A leading comment range as exposed by the external parser, carrying the
values of getPos, getEnd and getText. -/
structure CommentRange where
  pos : Nat
  endPos : Nat
  text : JsString
deriving DecidableEq, Repr

/-- The syntax kinds distinguished by getKind; every other category of
top-level node falls into OtherKind. -/
inductive SyntaxKind where
  | EnumDeclaration
  | TypeAliasDeclaration
  | InterfaceDeclaration
  | VariableStatement
  | ClassDeclaration
  | FunctionDeclaration
  | ImportDeclaration
  | OtherKind
deriving DecidableEq, Repr

/-- A parsed top-level node.  The external parser is a collaborator, so the
node carries the values main.ts reads through the parser accessors: getKind,
the child query for the export and declare keywords, the descendant query
for the type keyword, the const test on the declaration list, the name the
per-variant accessors of getName resolve, and getPos, getStart, getFullText,
getText, getLeadingCommentRanges and getLeadingTriviaWidth. -/
structure Node where
  syntaxKind : SyntaxKind
  hasExportKeywordChild : Bool
  hasDeclareKeywordChild : Bool
  hasTypeKeywordDescendant : Bool
  isConstVariableStatement : Bool
  nameText : JsString
  pos : Nat
  start : Nat
  fullText : JsString
  text : JsString
  leadingCommentRanges : List CommentRange
  leadingTriviaWidth : Nat
deriving Repr

/-- getKind of main.ts: the switch over the node syntax kind, which
classifies import declarations by the presence of a type keyword
descendant and returns the undefined kind for unrecognized categories. -/
def getKind (node : Node) : Option Kind :=
  match node.syntaxKind with
  | .EnumDeclaration => some .Enumeration
  | .TypeAliasDeclaration => some .TypeAlias
  | .InterfaceDeclaration => some .Interface
  | .VariableStatement => some .Variable
  | .ClassDeclaration => some .Class
  | .FunctionDeclaration => some .Function
  | .ImportDeclaration => if node.hasTypeKeywordDescendant then some .TypeImport else some .Import
  | .OtherKind => none

/-- getName of main.ts: the instanceof dispatch resolves the name through
external parser accessors, whose result the model node carries. -/
def getName (node : Node) : JsString :=
  node.nameText

/-- getTransfer of main.ts. -/
def getTransfer (node : Node) : Option Transfer :=
  if node.hasExportKeywordChild then some .IsExported else none

/-- getPersistance of main.ts: IsConstant for a variable statement whose
declaration list is const. -/
def getPersistance (node : Node) : Option Persistance :=
  if node.isConstVariableStatement then some .IsConstant else none

/-- getDeclaration of main.ts. -/
def getDeclaration (node : Node) : Option Declaration :=
  if node.hasDeclareKeywordChild then some .IsDeclared else none

/-- The loop of getCommentGapIndex: for index i the end offset of comment i
is compared against the position of comment i+1, or against the node start
for the last comment; the first difference exceeding one yields i + 1. -/
def getCommentGapIndexAux (nodeStart : Nat) : List CommentRange → Nat → Option Nat
  | [], _ => none
  | [c], i => if 1 < (nodeStart : Int) - (c.endPos : Int) then some (i + 1) else none
  | c1 :: c2 :: rest, i =>
    if 1 < (c2.pos : Int) - (c1.endPos : Int) then some (i + 1)
    else getCommentGapIndexAux nodeStart (c2 :: rest) (i + 1)

/-- getCommentGapIndex of main.ts: 0 when no gap is found. -/
def getCommentGapIndex (node : Node) : Nat :=
  (getCommentGapIndexAux node.start node.leadingCommentRanges 0).getD 0

/-- The text the splitting loop of splitToHeaderAndRest reads for comment
index i: for index 0 the substring of the full text from the node position
to the comment end offset minus the node position, for every later index
the text of the comment range itself. -/
def commentLoopTexts (node : Node) : List JsString :=
  match node.leadingCommentRanges with
  | [] => []
  | c0 :: rest =>
    jsSubstring node.fullText (node.pos : Int) ((c0.endPos : Int) - (node.pos : Int)) ::
      rest.map (fun c => c.text)

/-- Concatenation of the given texts, each followed by one newline: the
string an accumulator receiving text plus newline per iteration holds. -/
def concatLines (texts : List JsString) : JsString :=
  (texts.map (fun t => t ++ ['\n'])).flatten

/-- splitToHeaderAndRest of main.ts.  The source loop walks the comment
indices 0 .. length and appends each trimmed text plus a newline to the
header accumulator when the index is below the gap index and to the rest
accumulator otherwise; the model expresses the two accumulators as take and
drop at the gap index over the per-index texts (the node text being the
final index).  Both components are trimmed on return. -/
def splitToHeaderAndRest (node : Node) (split : Bool) : JsString × JsString :=
  if split then
    match node.leadingCommentRanges with
    | [] =>
      if 0 < node.leadingTriviaWidth then
        let header := jsSubstring node.fullText (node.pos : Int)
          ((node.pos : Int) + (node.leadingTriviaWidth : Int))
        (jsTrim header, jsTrim node.text)
      else
        ([], jsTrim node.fullText)
    | _ :: _ =>
      let commentGapIndex := getCommentGapIndex node
      let texts := (commentLoopTexts node ++ [node.text]).map jsTrim
      (jsTrim (concatLines (texts.take commentGapIndex)),
        jsTrim (concatLines (texts.drop commentGapIndex)))
  else
    ([], jsTrim node.fullText)

/-- The Header element yielded by getElements. -/
def headerElement (header : JsString) : Element :=
  { kind := some Kind.Header, transfer := none, persistance := none, declaration := none,
    name := [], text := header }

/-- The content element yielded by getElements for a node. -/
def contentElement (node : Node) (rest : JsString) : Element :=
  { kind := getKind node, transfer := getTransfer node, persistance := getPersistance node,
    declaration := getDeclaration node, name := getName node, text := rest }

/-- The elements one loop iteration of getElements yields for a node: the
header element when the header component is nonempty, then the content
element when the rest component is nonempty. -/
def elementsOfNode (node : Node) (isFirstNode : Bool) : List Element :=
  let hr := splitToHeaderAndRest node isFirstNode
  (if 0 < hr.1.length then [headerElement hr.1] else []) ++
    (if 0 < hr.2.length then [contentElement node hr.2] else [])

/-- The generator loop of getElements with its isFirstNode flag. -/
def getElementsAux : Bool → List Node → List Element
  | _, [] => []
  | isFirstNode, node :: rest => elementsOfNode node isFirstNode ++ getElementsAux false rest

/-- getElements of main.ts over the top-level nodes of a source file. -/
def getElements (nodes : List Node) : List Element :=
  getElementsAux true nodes

/-- isMultiline of main.ts. -/
def isMultiline (element : Element) : Bool :=
  jsIncludesChar element.text '\n'

/-- The elements.sort call of handleFile.  ECMAScript requires
Array.prototype.sort to be stable, so the call is modelled as a stable
merge sort on the comparison "compareElements yields a nonpositive
result"; the sort uses the default third argument false of
compareElements, hence the full chain. -/
def sortElements (comparisons : List Comparator) (elements : List Element) : List Element :=
  elements.mergeSort (fun element1 element2 =>
    decide (compareElements comparisons element1 element2 false ≤ 0))

/-- The loop state of the serialization loop of handleFile. -/
structure SerializeState where
  result : JsString
  previousIsMultiline : Bool
  previousElement : Option Element
  isFirstElement : Bool

/-- One iteration of the serialization loop of handleFile: a blank line is
appended before the element text when this is not the first element and
either the single-line-restricted re-comparison against the previous
element is nonzero or the current or previous element is multiline. -/
def serializeStep (comparisons : List Comparator) (state : SerializeState)
    (element : Element) : SerializeState :=
  let currentIsMultiline := isMultiline element
  let needsBlankLine :=
    match state.previousElement with
    | none => false
    | some previousElement => compareElements comparisons element previousElement true != 0
  let result :=
    if !state.isFirstElement && (needsBlankLine || currentIsMultiline || state.previousIsMultiline) then
      state.result ++ ['\n']
    else
      state.result
  { result := result ++ jsTrim element.text ++ ['\n'],
    previousIsMultiline := currentIsMultiline,
    previousElement := some element,
    isFirstElement := false }

/-- The serialization loop of handleFile over an element list. -/
def serializeElements (comparisons : List Comparator) (elements : List Element) : JsString :=
  (elements.foldl (serializeStep comparisons)
    { result := [], previousIsMultiline := false, previousElement := none,
      isFirstElement := true }).result

/-- handleFile of main.ts.  Building the ts-morph project and reading the
source file are external; the model receives the parsed top-level nodes,
collects the elements, sorts them with the full chain and serializes. -/
def handleFile (comparisons : List Comparator) (nodes : List Node) : JsString :=
  let elements := getElements nodes
  let sorted := sortElements comparisons elements
  serializeElements comparisons sorted

/-- One entry of the comparisons array of the configuration.  Each field
holds the value of the respective recognized key lookup on the JSON entry
object, none standing for an absent key; an entry whose object carries only
unrecognized keys therefore has every field none.  A configured JSON null
inside a value array is the inner none. -/
structure ConfigEntry where
  ignoreIfSingleLine : Option Bool
  kind : Option (List (Option String))
  transfer : Option (List (Option String))
  declare : Option (List (Option String))
  persistance : Option (List (Option String))
  pattern : Option (List (Option String))
  name : Option (List (Option String))

/-- The configuration object: the comparisons key may be absent. -/
structure Configuration where
  comparisons : Option (List ConfigEntry)

/-- The member-name lookup on the enum object Kind performed by
enumeration[value]; an unrecognized name yields undefined.  (The numeric
reverse mapping of TypeScript enums is not modelled: configured values are
the member names.) -/
def kindOfString : String → Option Kind
  | "Enumeration" => some .Enumeration
  | "Type" => some .TypeAlias
  | "Interface" => some .Interface
  | "Variable" => some .Variable
  | "Class" => some .Class
  | "Function" => some .Function
  | "Header" => some .Header
  | "Import" => some .Import
  | "TypeImport" => some .TypeImport
  | _ => none

/-- The member-name lookup on the enum object Transfer. -/
def transferOfString : String → Option Transfer
  | "IsExported" => some .IsExported
  | _ => none

/-- The member-name lookup on the enum object Declaration. -/
def declarationOfString : String → Option Declaration
  | "IsDeclared" => some .IsDeclared
  | _ => none

/-- The member-name lookup on the enum object Persistance. -/
def persistanceOfString : String → Option Persistance
  | "IsConstant" => some .IsConstant
  | _ => none

/-- toEnumerationValues of main.ts: each configured value indexes the enum
object; a JSON null as well as an unrecognized name produces undefined. -/
def toEnumerationValues {T : Type} (enumeration : String → Option T)
    (values : List (Option String)) : List (Option T) :=
  values.map (fun value => value.bind enumeration)

/-- getComparator of main.ts: tag the sort order with its name and flag. -/
def getComparator (sortOrder : SortOrderSpec) (name : String)
    (ignoreIfSingleLine : Bool) : Comparator :=
  { sortOrder := sortOrder, comparatorName := name, ignoreIfSingleLine := ignoreIfSingleLine }

/-- The if-else chain of readConfiguration for one entry: the first
recognized trait key present (in the order kind, transfer, declare,
persistance, pattern, name) contributes one comparator; an entry with no
recognized key contributes none.  Compiling a pattern string to a RegExp is
external, passed in as the compile function. -/
def processEntry (compile : String → Pattern) (entry : ConfigEntry) : List Comparator :=
  let ignoreIfSingleLine := entry.ignoreIfSingleLine.getD false
  match entry.kind with
  | some traitValues =>
    [getComparator (.traitKind (traitSetParameters (toEnumerationValues kindOfString traitValues)))
      "kind" ignoreIfSingleLine]
  | none =>
  match entry.transfer with
  | some traitValues =>
    [getComparator (.traitTransfer (traitSetParameters (toEnumerationValues transferOfString traitValues)))
      "transfer" ignoreIfSingleLine]
  | none =>
  match entry.declare with
  | some traitValues =>
    [getComparator (.traitDeclaration (traitSetParameters (toEnumerationValues declarationOfString traitValues)))
      "declare" ignoreIfSingleLine]
  | none =>
  match entry.persistance with
  | some traitValues =>
    [getComparator (.traitPersistance (traitSetParameters (toEnumerationValues persistanceOfString traitValues)))
      "persistance" ignoreIfSingleLine]
  | none =>
  match entry.pattern with
  | some traitValues =>
    [getComparator (.pattern (patternSetParameters (traitValues.map (fun v => v.map compile))))
      "pattern" ignoreIfSingleLine]
  | none =>
  match entry.name with
  | some _ => [getComparator .name "name" ignoreIfSingleLine]
  | none => []

/-- readConfiguration of main.ts: the assert on the missing comparisons key
becomes the error result; otherwise every entry appends its comparators to
the chain (the module-level comparisons array becomes the returned list). -/
def readConfiguration (compile : String → Pattern) (configuration : Configuration) :
    Except String (List Comparator) :=
  match configuration.comparisons with
  | none => .error "property comparisons missing in configuration"
  | some configurationComparisons =>
    .ok (configurationComparisons.foldl
      (fun comparisons entry => comparisons ++ processEntry compile entry) [])

/-- Specification-side blank-line condition of the layout claim: the
single-line-restricted chain compares the element nonzero against the
previous one, or either of the two is multiline. -/
def blankLineBefore (comparisons : List Comparator) (previousElement element : Element) : Bool :=
  (compareElements comparisons element previousElement true != 0) ||
    isMultiline element || isMultiline previousElement

/-- Specification-side serialization, continuing after a previous element:
each element contributes an optional blank line followed by its trimmed
text and a newline. -/
def specSerializeAux (comparisons : List Comparator) : Element → List Element → JsString
  | _, [] => []
  | previousElement, element :: rest =>
    (if blankLineBefore comparisons previousElement element then ['\n'] else []) ++
      jsTrim element.text ++ ['\n'] ++ specSerializeAux comparisons element rest

/-- Specification-side serialization of a sorted element list: the first
element is emitted without a preceding blank line. -/
def specSerialize (comparisons : List Comparator) : List Element → JsString
  | [] => []
  | element :: rest => jsTrim element.text ++ ['\n'] ++ specSerializeAux comparisons element rest

/-- Specification-side pattern rank: the position of the first configured
regular expression matching the key, independent of the null wildcard
entry; otherwise the position of the null wildcard entry when configured,
otherwise the maximum sentinel. -/
def specPatternRank (parameters : List (Option Pattern)) (key : JsString) : Nat :=
  match parameters.findIdx? (fun p => match p with | some pat => pat.test key | none => false) with
  | some i => i
  | none =>
    match parameters.findIdx? (fun p => p.isNone) with
    | some j => j
    | none => maxSafeInteger

/-- Newline-joined concatenation of a list of texts, as the specification
describes the header and rest components. -/
def joinLines : List JsString → JsString
  | [] => []
  | [s] => s
  | s :: rest => s ++ '\n' :: joinLines rest

/-- The forward distances scanned by getCommentGapIndex: between each
comment end offset and the next comment position, and for the last comment
the node start. -/
def gapDistances (nodeStart : Nat) : List CommentRange → List Int
  | [] => []
  | [c] => [(nodeStart : Int) - (c.endPos : Int)]
  | c1 :: c2 :: rest => ((c2.pos : Int) - (c1.endPos : Int)) :: gapDistances nodeStart (c2 :: rest)

/-- Specification-side gap index: one past the first scanned position whose
distance exceeds one character, 0 when there is none. -/
def specGapIndex (node : Node) : Nat :=
  match (gapDistances node.start node.leadingCommentRanges).findIdx? (fun d => decide (1 < d)) with
  | some i => i + 1
  | none => 0

/-- Entry positions paired to the parameters, used to describe the map a
sequence of fresh insertions builds. -/
def enumFrom (n : Nat) : List (Option Pattern) → List (Option Pattern × Nat)
  | [] => []
  | p :: rest => (p, n) :: enumFrom (n + 1) rest

/-- A concrete element used to instantiate proved properties. -/
def exampleElementA : Element :=
  { transfer := none, kind := none, persistance := none, name := "f".toList,
    text := "a".toList, declaration := none }

/-- A second concrete element with the same name as exampleElementA. -/
def exampleElementB : Element :=
  { transfer := none, kind := none, persistance := none, name := "f".toList,
    text := "b".toList, declaration := none }

/-- A concrete name comparator. -/
def exampleNameComparator : Comparator :=
  getComparator .name "name" false

/-- A concrete compiled pattern matching exactly the text aaa. -/
def examplePatternA : Pattern :=
  { test := fun s => s == "aaa".toList }

/-- A concrete external compile function. -/
def exampleCompile : String → Pattern :=
  fun _ => { test := fun _ => false }

/-- A configuration entry carrying no recognized trait key. -/
def exampleEntryEmpty : ConfigEntry :=
  { ignoreIfSingleLine := none, kind := none, transfer := none, declare := none,
    persistance := none, pattern := none, name := none }

/-- A concrete first node of a file: two line comments separated by a blank
line, followed directly by a variable statement. -/
def exampleNode : Node :=
  { syntaxKind := .VariableStatement, hasExportKeywordChild := false,
    hasDeclareKeywordChild := false, hasTypeKeywordDescendant := false,
    isConstVariableStatement := false, nameText := "x".toList,
    pos := 0, start := 11, fullText := "// a\n\n// b\nlet x;".toList,
    text := "let x;".toList,
    leadingCommentRanges :=
      [{ pos := 0, endPos := 4, text := "// a".toList },
       { pos := 6, endPos := 10, text := "// b".toList }],
    leadingTriviaWidth := 11 }

/-- C1: for every pair of elements and every configured comparator chain,
compareElements returns the result of the first comparator in configuration
order (skipping comparators flagged ignoreIfSingleLine when the single-line
restricted mode is requested) whose result is nonzero, and returns 0 if
every non-skipped comparator returns 0. -/
theorem C1_compareElements_first_nonzero (comparisons : List Comparator)
    (element1 element2 : Element) (useIgnoreIfSingleLine : Bool) :
    compareElements comparisons element1 element2 useIgnoreIfSingleLine =
      firstNonzero
        ((comparisons.filter (fun c => !(useIgnoreIfSingleLine && c.ignoreIfSingleLine))).map
          (fun c => c.sortOrder.compare element1 element2)) := by
  induction comparisons with
  | nil => rfl
  | cons c rest ih =>
    cases useIgnoreIfSingleLine <;> cases hf : c.ignoreIfSingleLine <;>
      simp [compareElements, List.filter_cons, firstNonzero, hf, ih]

/-- With the empty chain every comparison is 0, so the merge sort leaves
any element list unchanged. -/
theorem sortElements_nil_chain (elements : List Element) : sortElements [] elements = elements := by
  apply List.mergeSort_of_sorted
  induction elements with
  | nil => exact List.Pairwise.nil
  | cons element rest ih => exact List.pairwise_cons.mpr ⟨fun b _ => by rfl, ih⟩

/-- C10: if the configured comparator list is empty, compareElements
returns 0 for every pair in both the full and the single-line-restricted
mode, the sort leaves the element order unchanged, and handleFile emits the
elements in their original source order. -/
theorem C10_empty_chain_source_order :
    (∀ (element1 element2 : Element) (useIgnoreIfSingleLine : Bool),
      compareElements [] element1 element2 useIgnoreIfSingleLine = 0) ∧
    (∀ elements : List Element, sortElements [] elements = elements) ∧
    (∀ nodes : List Node, handleFile [] nodes = serializeElements [] (getElements nodes)) := by
  refine ⟨fun _ _ _ => rfl, sortElements_nil_chain, fun nodes => ?_⟩
  simp [handleFile, sortElements_nil_chain]

/-- C9: readConfiguration yields an error exactly when the top-level
comparisons key is absent, and an entry containing only unrecognized trait
keys is skipped without error and contributes no comparator. -/
theorem C9_readConfiguration_errors (compile : String → Pattern) (configuration : Configuration) :
    ((∃ message, readConfiguration compile configuration = .error message) ↔
      configuration.comparisons = none) ∧
    (∀ entry : ConfigEntry, entry.kind = none → entry.transfer = none → entry.declare = none →
      entry.persistance = none → entry.pattern = none → entry.name = none →
      processEntry compile entry = []) := by
  constructor
  · constructor
    · rintro ⟨message, herr⟩
      cases hc : configuration.comparisons with
      | none => rfl
      | some entries => simp [readConfiguration, hc] at herr
    · intro hc
      exact ⟨"property comparisons missing in configuration", by simp [readConfiguration, hc]⟩
  · intro entry h1 h2 h3 h4 h5 h6
    simp [processEntry, h1, h2, h3, h4, h5, h6]

/-- Witness for C9 at a configuration without the comparisons key and at an
entry with no recognized trait key. -/
theorem C9_witness :
    (∃ message, readConfiguration exampleCompile { comparisons := none } = .error message) ∧
    processEntry exampleCompile exampleEntryEmpty = [] :=
  ⟨(C9_readConfiguration_errors exampleCompile { comparisons := none }).1.mpr rfl,
    (C9_readConfiguration_errors exampleCompile { comparisons := none }).2 exampleEntryEmpty
      rfl rfl rfl rfl rfl rfl⟩

/-- The serialization loop, continued from a state that has already emitted
a previous element, appends exactly the specification-side continuation. -/
theorem serializeFold_continue (comparisons : List Comparator) (elements : List Element) :
    ∀ (result : JsString) (previousElement : Element),
    (elements.foldl (serializeStep comparisons)
      { result := result, previousIsMultiline := isMultiline previousElement,
        previousElement := some previousElement, isFirstElement := false }).result =
      result ++ specSerializeAux comparisons previousElement elements := by
  induction elements with
  | nil =>
    intro result previousElement
    simp [specSerializeAux]
  | cons element rest ih =>
    intro result previousElement
    simp only [List.foldl_cons, specSerializeAux, serializeStep, Bool.not_false, Bool.true_and]
    rw [ih]
    cases hcond : (compareElements comparisons element previousElement true != 0) ||
        isMultiline element || isMultiline previousElement with
    | false => simp [blankLineBefore, hcond]
    | true => simp [blankLineBefore, hcond]

/-- C3: the serialized output inserts a blank line before an element (other
than the first) exactly when the single-line-restricted chain compares it
nonzero against the previous element or the current or the previous element
text spans multiple lines; otherwise adjacent elements follow each other
with no blank line, as the specification-side serializer states. -/
theorem C3_blank_line_insertion (comparisons : List Comparator) :
    (∀ elements : List Element,
      serializeElements comparisons elements = specSerialize comparisons elements) ∧
    (∀ nodes : List Node,
      handleFile comparisons nodes =
        specSerialize comparisons (sortElements comparisons (getElements nodes))) := by
  have hser : ∀ elements : List Element,
      serializeElements comparisons elements = specSerialize comparisons elements := by
    intro elements
    cases elements with
    | nil => rfl
    | cons element rest =>
      simp only [serializeElements, List.foldl_cons, serializeStep, specSerialize,
        Bool.not_true, Bool.false_and, if_false]
      rw [serializeFold_continue]
      simp
  exact ⟨hser, fun nodes => hser (sortElements comparisons (getElements nodes))⟩

/-- The rank comparison is negative exactly when the first rank is smaller. -/
theorem mappedCompare_lt_iff (rank1 rank2 : Nat) : mappedCompare rank1 rank2 < 0 ↔ rank1 < rank2 := by
  unfold mappedCompare
  split_ifs <;> omega

/-- The rank comparison is zero exactly when the ranks agree. -/
theorem mappedCompare_eq_iff (rank1 rank2 : Nat) : mappedCompare rank1 rank2 = 0 ↔ rank1 = rank2 := by
  unfold mappedCompare
  split_ifs with h1 h2
  · exact iff_of_true rfl h1
  · exact iff_of_false (by norm_num) h1
  · exact iff_of_false (by norm_num) h1

/-- The rank comparison is nonpositive exactly when the first rank is at
most the second. -/
theorem mappedCompare_le_iff (rank1 rank2 : Nat) : mappedCompare rank1 rank2 ≤ 0 ↔ rank1 ≤ rank2 := by
  unfold mappedCompare
  split_ifs <;> omega

/-- The rank comparison is antisymmetric. -/
theorem mappedCompare_antisym (rank1 rank2 : Nat) : mappedCompare rank1 rank2 = - mappedCompare rank2 rank1 := by
  unfold mappedCompare
  split_ifs <;> omega

/-- The name comparison is negative exactly on a smaller first string. -/
theorem localeCompare_lt_iff (s1 s2 : JsString) : localeCompare s1 s2 < 0 ↔ s1 < s2 := by
  unfold localeCompare
  split_ifs with h1 h2
  · exact iff_of_true (by norm_num) h1
  · exact iff_of_false (by norm_num) h1
  · exact iff_of_false (by norm_num) h1

/-- The name comparison is zero exactly on equal strings. -/
theorem localeCompare_eq_iff (s1 s2 : JsString) : localeCompare s1 s2 = 0 ↔ s1 = s2 := by
  unfold localeCompare
  split_ifs with h1 h2
  · exact iff_of_false (by norm_num) (ne_of_lt h1)
  · exact iff_of_false (by norm_num) (ne_of_gt h2)
  · exact iff_of_true rfl (le_antisymm (not_lt.mp h2) (not_lt.mp h1))

/-- The name comparison is nonpositive exactly on a first string at most
the second. -/
theorem localeCompare_le_iff (s1 s2 : JsString) : localeCompare s1 s2 ≤ 0 ↔ s1 ≤ s2 := by
  unfold localeCompare
  split_ifs with h1 h2
  · exact iff_of_true (by norm_num) (le_of_lt h1)
  · exact iff_of_false (by norm_num) (not_le.mpr h2)
  · exact iff_of_true le_rfl (not_lt.mp h2)

/-- The name comparison is antisymmetric. -/
theorem localeCompare_antisym (s1 s2 : JsString) : localeCompare s1 s2 = - localeCompare s2 s1 := by
  unfold localeCompare
  rcases lt_trichotomy s1 s2 with h | h | h
  · rw [if_pos h, if_neg (lt_asymm h), if_pos h]
  · subst h
    simp [lt_irrefl]
  · rw [if_neg (lt_asymm h), if_pos h, if_pos h]
    norm_num

/-- Every configured sort order compares antisymmetrically. -/
theorem sortOrderCompare_antisym (s : SortOrderSpec) (a b : Element) :
    s.compare a b = - s.compare b a := by
  cases s <;> simp only [SortOrderSpec.compare] <;>
    first
    | exact mappedCompare_antisym _ _
    | exact localeCompare_antisym _ _

/-- Every configured sort order compares transitively: a negative result
followed by a nonpositive one stays negative, a zero followed by a negative
stays negative, and zeroes compose to zero. -/
theorem sortOrderCompare_trans (s : SortOrderSpec) (a b c : Element) :
    (s.compare a b < 0 → s.compare b c ≤ 0 → s.compare a c < 0) ∧
    (s.compare a b = 0 → s.compare b c < 0 → s.compare a c < 0) ∧
    (s.compare a b = 0 → s.compare b c = 0 → s.compare a c = 0) := by
  cases s <;>
    simp only [SortOrderSpec.compare, mappedCompare_lt_iff, mappedCompare_le_iff,
      mappedCompare_eq_iff, localeCompare_lt_iff, localeCompare_le_iff, localeCompare_eq_iff]
  case name =>
    exact ⟨fun h1 h2 => lt_of_lt_of_le h1 h2, fun h1 h2 => h1 ▸ h2, fun h1 h2 => h1.trans h2⟩
  all_goals omega

/-- The chain comparison is antisymmetric. -/
theorem compareElements_antisym (comparisons : List Comparator) (a b : Element) (mode : Bool) :
    compareElements comparisons a b mode = - compareElements comparisons b a mode := by
  induction comparisons with
  | nil => rfl
  | cons comp rest ih =>
    have hanti := sortOrderCompare_antisym comp.sortOrder a b
    by_cases hskip : (mode && comp.ignoreIfSingleLine) = true
    · simpa [compareElements, hskip] using ih
    · by_cases hzero : comp.sortOrder.compare a b = 0
      · have hzero2 : comp.sortOrder.compare b a = 0 := by omega
        simpa [compareElements, hskip, hzero, hzero2] using ih
      · have hzero2 : comp.sortOrder.compare b a ≠ 0 := by omega
        simp [compareElements, hskip, hzero, hzero2]
        omega

/-- The chain comparison composes nonpositive results transitively. -/
theorem compareElements_le_trans (comparisons : List Comparator) (a b c : Element) (mode : Bool) :
    compareElements comparisons a b mode ≤ 0 → compareElements comparisons b c mode ≤ 0 →
      compareElements comparisons a c mode ≤ 0 := by
  induction comparisons with
  | nil => intro h1 _; exact h1
  | cons comp rest ih =>
    obtain ⟨t1, t2, t3⟩ := sortOrderCompare_trans comp.sortOrder a b c
    by_cases hskip : (mode && comp.ignoreIfSingleLine) = true
    · simpa [compareElements, hskip] using ih
    · simp only [compareElements, hskip, if_false, Bool.false_eq_true]
      intro h1 h2
      by_cases hab : comp.sortOrder.compare a b = 0
      · by_cases hbc : comp.sortOrder.compare b c = 0
        · have hac := t3 hab hbc
          simp only [hab, hbc, hac, ne_eq, not_true_eq_false, if_false] at *
          exact ih h1 h2
        · have hbclt : comp.sortOrder.compare b c < 0 := by
            simp only [ne_eq, hbc, not_false_eq_true, if_true] at h2
            omega
          have hac := t2 hab hbclt
          simp only [ne_eq, hac.ne, not_false_eq_true, if_true]
          omega
      · have hablt : comp.sortOrder.compare a b < 0 := by
          simp only [ne_eq, hab, not_false_eq_true, if_true] at h1
          omega
        have hbcle : comp.sortOrder.compare b c ≤ 0 := by
          by_cases hbc : comp.sortOrder.compare b c = 0
          · omega
          · simp only [ne_eq, hbc, not_false_eq_true, if_true] at h2
            exact h2
        have hac := t1 hablt hbcle
        simp only [ne_eq, hac.ne, not_false_eq_true, if_true]
        omega

/-- One of the two chain comparisons of a pair is always nonpositive. -/
theorem compareElements_total (comparisons : List Comparator) (a b : Element) (mode : Bool) :
    compareElements comparisons a b mode ≤ 0 ∨ compareElements comparisons b a mode ≤ 0 := by
  have h := compareElements_antisym comparisons a b mode
  omega

/-- C8: for every finite element sequence and every configured comparator
chain, sorting with compareElements is idempotent: sorting an
already-sorted sequence yields the same sequence. -/
theorem C8_sort_idempotent (comparisons : List Comparator) (elements : List Element) :
    sortElements comparisons (sortElements comparisons elements) = sortElements comparisons elements := by
  unfold sortElements
  apply List.mergeSort_of_sorted
  apply List.sorted_mergeSort
  · intro a b c h1 h2
    simp only [decide_eq_true_eq] at *
    exact compareElements_le_trans comparisons a b c false h1 h2
  · intro a b
    rcases compareElements_total comparisons a b false with h | h
    · simp [h]
    · simp [h]

/-- A pair on which every configured comparator returns 0 compares to 0
under the whole chain in either mode. -/
theorem compareElements_eq_zero_of_all (comparisons : List Comparator) (a b : Element) (mode : Bool)
    (h : ∀ comparator ∈ comparisons, comparator.sortOrder.compare a b = 0) :
    compareElements comparisons a b mode = 0 := by
  induction comparisons with
  | nil => rfl
  | cons comp rest ih =>
    have h0 := h comp (List.mem_cons_self comp rest)
    have hrest := ih (fun comparator hc => h comparator (List.mem_cons_of_mem comp hc))
    by_cases hskip : (mode && comp.ignoreIfSingleLine) = true
    · simpa [compareElements, hskip] using hrest
    · simpa [compareElements, hskip, h0] using hrest

/-- C2: the sort performed by handleFile with the full comparator chain is
stable: two elements on which every configured comparator returns 0 appear
in the sorted output in their original relative order. -/
theorem C2_sort_stable (comparisons : List Comparator) (elements : List Element)
    (element1 element2 : Element)
    (hequal : ∀ comparator ∈ comparisons, comparator.sortOrder.compare element1 element2 = 0)
    (horder : List.Sublist [element1, element2] elements) :
    List.Sublist [element1, element2] (sortElements comparisons elements) := by
  unfold sortElements
  apply List.sublist_mergeSort
  · intro a b c h1 h2
    simp only [decide_eq_true_eq] at *
    exact compareElements_le_trans comparisons a b c false h1 h2
  · intro a b
    rcases compareElements_total comparisons a b false with h | h
    · simp [h]
    · simp [h]
  · refine List.pairwise_cons.mpr ⟨?_, List.pairwise_cons.mpr ⟨?_, List.Pairwise.nil⟩⟩
    · intro b hb
      rw [List.mem_singleton] at hb
      simp only [decide_eq_true_eq, hb]
      exact le_of_eq (compareElements_eq_zero_of_all comparisons element1 element2 false hequal)
    · intro b hb
      exact absurd hb (List.not_mem_nil b)
  · exact horder

/-- Witness for C2: two elements with equal names under the single name
comparator, taken in their given order. -/
theorem C2_sort_stable_witness :
    List.Sublist [exampleElementA, exampleElementB]
      (sortElements [exampleNameComparator] [exampleElementA, exampleElementB]) :=
  C2_sort_stable [exampleNameComparator] [exampleElementA, exampleElementB]
    exampleElementA exampleElementB (by decide) (List.Sublist.refl _)

/-- Setting one key leaves the lookup of any other key unchanged. -/
theorem mapGet_mapSet_ne {K : Type} [DecidableEq K] (m : List (K × Nat)) (p k : K) (v : Nat)
    (hne : k ≠ p) : mapGet (mapSet m p v) k = mapGet m k := by
  have hpk : p ≠ k := fun h => hne h.symm
  induction m with
  | nil => simp [mapSet, mapGet, hpk]
  | cons q rest ih =>
    by_cases hq : q.1 = p
    · simp [mapSet, mapGet, hq, hpk]
    · by_cases hk : q.1 = k
      · rw [mapSet, if_neg hq, mapGet, if_pos hk, mapGet, if_pos hk]
      · simp [mapSet, mapGet, hq, hk, ih]

/-- Setting a key makes its lookup return the new value. -/
theorem mapGet_mapSet_self {K : Type} [DecidableEq K] (m : List (K × Nat)) (p : K) (v : Nat) :
    mapGet (mapSet m p v) p = some v := by
  induction m with
  | nil => simp [mapSet, mapGet]
  | cons q rest ih =>
    by_cases hq : q.1 = p
    · simp [mapSet, mapGet, hq]
    · simp [mapSet, mapGet, hq, ih]

/-- Every entry after a set step was there before or is the new pair. -/
theorem mem_mapSet {K : Type} [DecidableEq K] (m : List (K × Nat)) (p : K) (v : Nat) (q : K × Nat)
    (hq : q ∈ mapSet m p v) : q ∈ m ∨ q = (p, v) := by
  induction m with
  | nil =>
    simp only [mapSet, List.mem_singleton] at hq
    exact Or.inr hq
  | cons q0 rest ih =>
    by_cases h0 : q0.1 = p
    · rw [mapSet, if_pos h0] at hq
      rcases List.mem_cons.mp hq with h1 | h2
      · exact Or.inr h1
      · exact Or.inl (List.mem_cons_of_mem q0 h2)
    · rw [mapSet, if_neg h0] at hq
      rcases List.mem_cons.mp hq with h1 | h2
      · exact Or.inl (h1 ▸ List.mem_cons_self q0 rest)
      · rcases ih h2 with h3 | h4
        · exact Or.inl (List.mem_cons_of_mem q0 h3)
        · exact Or.inr h4

/-- Bounds for the size of a map after a set step. -/
theorem length_mapSet {K : Type} [DecidableEq K] (m : List (K × Nat)) (p : K) (v : Nat) :
    m.length ≤ (mapSet m p v).length ∧ (mapSet m p v).length ≤ m.length + 1 := by
  induction m with
  | nil => simp [mapSet]
  | cons q rest ih =>
    by_cases hq : q.1 = p
    · simp only [mapSet, if_pos hq, List.length_cons]
      omega
    · simp only [mapSet, if_neg hq, List.length_cons]
      omega

/-- A successful lookup exhibits its key-value pair as a map entry. -/
theorem mapGet_eq_some_mem {K : Type} [DecidableEq K] (m : List (K × Nat)) (k : K) (r : Nat)
    (h : mapGet m k = some r) : (k, r) ∈ m := by
  induction m with
  | nil => simp [mapGet] at h
  | cons q rest ih =>
    by_cases hq : q.1 = k
    · rw [mapGet, if_pos hq] at h
      have hq2 : q.2 = r := Option.some.inj h
      have : q = (k, r) := Prod.ext_iff.mpr ⟨hq, hq2⟩
      exact this ▸ List.mem_cons_self q rest
    · rw [mapGet, if_neg hq] at h
      exact List.mem_cons_of_mem q (ih h)

/-- A key not among the parameters is untouched by setParameters. -/
theorem traitFold_get_not_mem {K : Type} [DecidableEq K] (parameters : List K) :
    ∀ (m : List (K × Nat)) (k : K), k ∉ parameters →
      mapGet (parameters.foldl (fun m p => mapSet m p m.length) m) k = mapGet m k := by
  induction parameters with
  | nil => intro m k _; rfl
  | cons p rest ih =>
    intro m k hk
    simp only [List.mem_cons, not_or] at hk
    obtain ⟨hkp, hkrest⟩ := hk
    rw [List.foldl_cons, ih _ k hkrest, mapGet_mapSet_ne m p k m.length hkp]

/-- A lookup that already succeeds keeps succeeding along setParameters. -/
theorem traitFold_get_isSome {K : Type} [DecidableEq K] (parameters : List K) :
    ∀ (m : List (K × Nat)) (k : K), (mapGet m k).isSome →
      (mapGet (parameters.foldl (fun m p => mapSet m p m.length) m) k).isSome := by
  induction parameters with
  | nil => intro m k h; exact h
  | cons p rest ih =>
    intro m k h
    rw [List.foldl_cons]
    apply ih
    by_cases hkp : k = p
    · subst hkp
      rw [mapGet_mapSet_self]
      rfl
    · rw [mapGet_mapSet_ne m p k m.length hkp]
      exact h

/-- Every parameter becomes a key of the built map. -/
theorem traitFold_get_mem {K : Type} [DecidableEq K] (parameters : List K) :
    ∀ (m : List (K × Nat)) (k : K), k ∈ parameters →
      (mapGet (parameters.foldl (fun m p => mapSet m p m.length) m) k).isSome := by
  induction parameters with
  | nil => intro m k h; exact absurd h (List.not_mem_nil k)
  | cons p rest ih =>
    intro m k h
    rw [List.foldl_cons]
    by_cases hkp : k = p
    · subst hkp
      apply traitFold_get_isSome
      rw [mapGet_mapSet_self]
      rfl
    · rcases List.mem_cons.mp h with h1 | h2
      · exact absurd h1 hkp
      · exact ih _ k h2

/-- Every stored rank is bounded by the final size of the built map. -/
theorem traitFold_rank_le {K : Type} [DecidableEq K] (parameters : List K) :
    ∀ (m : List (K × Nat)), (∀ q ∈ m, q.2 ≤ m.length) →
      ∀ q ∈ parameters.foldl (fun m p => mapSet m p m.length) m,
        q.2 ≤ (parameters.foldl (fun m p => mapSet m p m.length) m).length := by
  induction parameters with
  | nil => intro m hm q hq; exact hm q hq
  | cons p rest ih =>
    intro m hm q hq
    rw [List.foldl_cons] at hq ⊢
    refine ih (mapSet m p m.length) ?_ q hq
    intro q0 hq0
    rcases mem_mapSet m p m.length q0 hq0 with h1 | h2
    · exact le_trans (hm q0 h1) (length_mapSet m p m.length).1
    · rw [h2]
      exact (length_mapSet m p m.length).1

/-- The built map is no longer than the start map plus the parameters. -/
theorem traitFold_length_le {K : Type} [DecidableEq K] (parameters : List K) :
    ∀ m : List (K × Nat),
      (parameters.foldl (fun m p => mapSet m p m.length) m).length ≤
        m.length + parameters.length := by
  induction parameters with
  | nil => intro m; simp
  | cons p rest ih =>
    intro m
    rw [List.foldl_cons]
    have h1 := ih (mapSet m p m.length)
    have h2 := (length_mapSet m p m.length).2
    simp only [List.length_cons]
    omega

/-- C4 counterexample: under the configured kind list [Import, null] the
null wildcard entry is present with rank 1, the kind Class is absent from
the list, yet an element of kind Class receives the maximum sentinel rank
rather than the rank of the null entry. -/
theorem C4_counterexample :
    mapGet (traitSetParameters [some Kind.Import, (none : Option Kind)]) none = some 1 ∧
    some Kind.Class ∉ [some Kind.Import, (none : Option Kind)] ∧
    TraitSortOrder.getRank (traitSetParameters [some Kind.Import, (none : Option Kind)])
      (some Kind.Class) = maxSafeInteger ∧
    maxSafeInteger ≠ 1 := by
  refine ⟨rfl, by decide, rfl, by decide⟩

/-- C4 (amended): for a trait comparator, an element whose trait value is
the undefined (not-applicable) value receives the rank stored for the
configured null entry whenever one is present (a real configured rank,
below the sentinel for any representable configuration), otherwise the
maximum sentinel rank; an element whose defined trait value is absent from
the configured value list always receives the maximum sentinel rank, so it
sorts after every element whose value is listed, every listed value
ranking strictly below the sentinel. -/
theorem C4_unlisted_value_sentinel {K : Type} [DecidableEq K]
    (parameters : List (Option K)) :
    (∀ r : Nat, mapGet (traitSetParameters parameters) none = some r →
      TraitSortOrder.getRank (traitSetParameters parameters) none = r) ∧
    (none ∈ parameters →
      (mapGet (traitSetParameters parameters) none).isSome ∧
      (parameters.length < maxSafeInteger →
        TraitSortOrder.getRank (traitSetParameters parameters) none < maxSafeInteger)) ∧
    (none ∉ parameters →
      TraitSortOrder.getRank (traitSetParameters parameters) none = maxSafeInteger) ∧
    (∀ v : K, some v ∉ parameters →
      TraitSortOrder.getRank (traitSetParameters parameters) (some v) = maxSafeInteger) ∧
    (parameters.length < maxSafeInteger →
      ∀ w ∈ parameters,
        TraitSortOrder.getRank (traitSetParameters parameters) w < maxSafeInteger) := by
  have hnotmem : ∀ k : Option K, k ∉ parameters →
      TraitSortOrder.getRank (traitSetParameters parameters) k = maxSafeInteger := by
    intro k hk
    unfold TraitSortOrder.getRank traitSetParameters
    rw [traitFold_get_not_mem parameters [] k hk]
    rfl
  have hlisted : parameters.length < maxSafeInteger →
      ∀ w ∈ parameters,
        TraitSortOrder.getRank (traitSetParameters parameters) w < maxSafeInteger := by
    intro hsize w hw
    have hsome := traitFold_get_mem parameters [] w hw
    obtain ⟨r, hr⟩ := Option.isSome_iff_exists.mp hsome
    have hmem := mapGet_eq_some_mem _ w r hr
    have hbound := traitFold_rank_le parameters []
      (fun q hq => absurd hq (List.not_mem_nil q)) (w, r) hmem
    have hlen := traitFold_length_le parameters []
    unfold TraitSortOrder.getRank traitSetParameters
    rw [hr]
    simp only [Option.getD_some]
    simp only [List.length_nil] at hlen
    omega
  refine ⟨?_, ?_, hnotmem none, fun v hv => hnotmem (some v) hv, hlisted⟩
  · intro r hr
    unfold TraitSortOrder.getRank
    rw [hr]
    rfl
  · intro hnull
    exact ⟨traitFold_get_mem parameters [] none hnull,
      fun hsize => hlisted hsize none hnull⟩

/-- Witness for C4 (amended) at the configured kind list [Import, null]:
the null entry is stored with rank 1, the not-applicable value receives
that rank (below the sentinel), and the unlisted kind Class receives the
sentinel. -/
theorem C4_unlisted_value_sentinel_witness :
    TraitSortOrder.getRank (traitSetParameters [some Kind.Import, (none : Option Kind)])
      none = 1 ∧
    TraitSortOrder.getRank (traitSetParameters [some Kind.Import, (none : Option Kind)])
      none < maxSafeInteger ∧
    TraitSortOrder.getRank (traitSetParameters [some Kind.Import, (none : Option Kind)])
      (some Kind.Class) = maxSafeInteger :=
  ⟨(C4_unlisted_value_sentinel [some Kind.Import, (none : Option Kind)]).1 1 (by decide),
    ((C4_unlisted_value_sentinel [some Kind.Import, (none : Option Kind)]).2.1
      (by decide)).2 (by decide),
    (C4_unlisted_value_sentinel [some Kind.Import, (none : Option Kind)]).2.2.2.1
      Kind.Class (by decide)⟩

/-- setParameters with at most one null entry performs only fresh
insertions: the built map pairs each parameter with its position. -/
theorem patternFold_enum (parameters : List (Option Pattern)) :
    ∀ m : List (Option Pattern × Nat),
      m.countP (fun q => q.1.isNone) + parameters.countP (fun p => p.isNone) ≤ 1 →
      parameters.foldl patternSetStep m = m ++ enumFrom m.length parameters := by
  induction parameters with
  | nil => intro m _; simp [enumFrom]
  | cons p rest ih =>
    intro m hcount
    rw [List.foldl_cons]
    cases p with
    | some pat =>
      have hstep : patternSetStep m (some pat) = m ++ [(some pat, m.length)] := rfl
      rw [hstep, ih]
      · simp [enumFrom, List.length_append]
      · rw [List.countP_append]
        rw [List.countP_cons] at hcount
        simp only [Option.isNone_some, if_false, List.countP_singleton] at *
        omega
    | none =>
      rw [List.countP_cons] at hcount
      simp only [Option.isNone_none, if_true] at hcount
      have hm0 : m.countP (fun q => q.1.isNone) = 0 := by omega
      have hrest0 : rest.countP (fun p => p.isNone) = 0 := by omega
      have hany : m.any (fun q => q.1.isNone) = false := by
        rw [List.any_eq_false]
        intro x hx
        simpa using List.countP_eq_zero.mp hm0 x hx
      have hstep : patternSetStep m none = m ++ [(none, m.length)] := by
        simp [patternSetStep, hany]
      rw [hstep, ih]
      · simp [enumFrom, List.length_append]
      · rw [List.countP_append]
        simp only [List.countP_singleton, Option.isNone_none, if_true] at *
        omega

/-- The rank scan over a freshly enumerated parameter list with at most one
null entry: the first matching non-null pattern wins with its position;
otherwise the null position; otherwise the incoming match-all rank. -/
theorem getRankAux_enumFrom (key : JsString) (parameters : List (Option Pattern)) :
    ∀ n acc : Nat, parameters.countP (fun p => p.isNone) ≤ 1 →
      PatternSortOrder.getRankAux key (enumFrom n parameters) acc =
        match parameters.findIdx?
            (fun p => match p with | some pat => pat.test key | none => false) with
        | some i => n + i
        | none =>
          match parameters.findIdx? (fun p => p.isNone) with
          | some j => n + j
          | none => acc := by
  induction parameters with
  | nil => intro n acc _; rfl
  | cons p rest ih =>
    intro n acc hcount
    cases p with
    | some pat =>
      have henum : enumFrom n (some pat :: rest) = (some pat, n) :: enumFrom (n + 1) rest := rfl
      rw [henum]
      have hcrest : rest.countP (fun p => p.isNone) ≤ 1 := by
        rw [List.countP_cons] at hcount
        omega
      by_cases htest : pat.test key
      · simp only [PatternSortOrder.getRankAux, htest, if_true]
        rw [List.findIdx?_cons]
        simp [htest]
      · simp only [PatternSortOrder.getRankAux, htest, if_false]
        rw [ih (n + 1) acc hcrest]
        rw [List.findIdx?_cons, List.findIdx?_cons]
        simp only [htest, if_false, Option.isNone_some, List.findIdx?_succ]
        cases hfind : rest.findIdx?
            (fun p => match p with | some pat => pat.test key | none => false) with
        | some i => simp [hfind, Nat.add_assoc, Nat.add_comm, Nat.add_left_comm]
        | none =>
          simp only [hfind, Option.map_none]
          cases hfind2 : rest.findIdx? (fun p => p.isNone) with
          | some j => simp [hfind2, Nat.add_assoc, Nat.add_comm, Nat.add_left_comm]
          | none => simp [hfind2]
    | none =>
      have henum : enumFrom n (none :: rest) = (none, n) :: enumFrom (n + 1) rest := rfl
      rw [henum]
      rw [List.countP_cons] at hcount
      simp only [Option.isNone_none, if_true] at hcount
      have hrest0 : rest.countP (fun p => p.isNone) = 0 := by omega
      have hnonull : rest.findIdx? (fun p => p.isNone) = none := by
        rw [List.findIdx?_eq_none_iff]
        intro x hx
        have hne := List.countP_eq_zero.mp hrest0 x hx
        cases x with
        | none => simp at hne
        | some pa => rfl
      simp only [PatternSortOrder.getRankAux]
      rw [ih (n + 1) n (by omega)]
      rw [List.findIdx?_cons, List.findIdx?_cons]
      simp only [if_false, Option.isNone_none, if_true, List.findIdx?_succ, hnonull]
      cases hfind : rest.findIdx?
          (fun p => match p with | some pat => pat.test key | none => false) with
      | some i => simp [hfind, Nat.add_assoc, Nat.add_comm, Nat.add_left_comm]
      | none => simp [hfind]

/-- C5: the pattern comparator ranks an element by the first configured
regular expression in configuration order matching its text, independent of
the position of the null wildcard entry; an element matching no configured
pattern takes the rank of the null wildcard entry if configured, otherwise
the maximum sentinel rank. -/
theorem C5_pattern_first_match (parameters : List (Option Pattern)) (key : JsString)
    (hwild : parameters.countP (fun p => p.isNone) ≤ 1) :
    PatternSortOrder.getRank (patternSetParameters parameters) key =
      specPatternRank parameters key := by
  unfold PatternSortOrder.getRank patternSetParameters specPatternRank
  rw [patternFold_enum parameters [] (by simpa using hwild)]
  rw [List.nil_append, List.length_nil]
  rw [getRankAux_enumFrom key parameters 0 maxSafeInteger hwild]
  cases hfind : parameters.findIdx?
      (fun p => match p with | some pat => pat.test key | none => false) with
  | some i => simp [hfind]
  | none =>
    simp only [hfind]
    cases hfind2 : parameters.findIdx? (fun p => p.isNone) with
    | some j => simp [hfind2]
    | none => simp [hfind2]

/-- Witness for C5 at the configured pattern list [null, aaa-pattern] and a
text matching the pattern: the element takes the rank of the matching
pattern, not the earlier null position. -/
theorem C5_pattern_first_match_witness :
    PatternSortOrder.getRank (patternSetParameters [none, some examplePatternA]) "aaa".toList =
      specPatternRank [none, some examplePatternA] "aaa".toList :=
  C5_pattern_first_match [none, some examplePatternA] "aaa".toList (by decide)

/-- The head surviving a dropWhile fails the predicate. -/
theorem dropWhile_head_not {α : Type} (p : α → Bool) (l : List α) (c : α) (t : List α)
    (h : l.dropWhile p = c :: t) : p c = false := by
  induction l with
  | nil => simp [List.dropWhile] at h
  | cons a rest ih =>
    rw [List.dropWhile_cons] at h
    by_cases hp : p a
    · rw [if_pos hp] at h
      exact ih h
    · rw [if_neg hp] at h
      injection h with h1 _
      subst h1
      simpa using hp

/-- dropWhile is idempotent. -/
theorem dropWhile_idem2 {α : Type} (p : α → Bool) (l : List α) :
    (l.dropWhile p).dropWhile p = l.dropWhile p := by
  cases h : l.dropWhile p with
  | nil => rfl
  | cons c t =>
    rw [List.dropWhile_cons, if_neg]
    simp [dropWhile_head_not p l c t h]

/-- dropWhile over an append whose left part survives. -/
theorem dropWhile_append_of_ne_nil {α : Type} (p : α → Bool) (u v : List α)
    (h : u.dropWhile p ≠ []) : (u ++ v).dropWhile p = u.dropWhile p ++ v := by
  rw [List.dropWhile_append, if_neg]
  simpa [List.isEmpty_iff] using h

/-- dropWhile over an append whose left part vanishes. -/
theorem dropWhile_append_of_nil {α : Type} (p : α → Bool) (u v : List α)
    (h : u.dropWhile p = []) : (u ++ v).dropWhile p = v.dropWhile p := by
  rw [List.dropWhile_append, if_pos]
  simp [List.isEmpty_iff, h]

/-- A nonempty trimStart-fixed string keeps its form under appending. -/
theorem trimStart_append_of_fixed (s t : JsString) (hfix : trimStart s = s) (hne : s ≠ []) :
    trimStart (s ++ t) = s ++ t := by
  unfold trimStart at *
  rw [dropWhile_append_of_ne_nil isJsWhitespace s t (by rw [hfix]; exact hne), hfix]

/-- trimEnd over an append whose right part does not vanish. -/
theorem trimEnd_append_of_ne_nil (s t : JsString) (h : trimEnd t ≠ []) :
    trimEnd (s ++ t) = s ++ trimEnd t := by
  unfold trimEnd at *
  rw [List.reverse_append,
    dropWhile_append_of_ne_nil isJsWhitespace t.reverse s.reverse
      (fun hc => h (by rw [hc]; rfl)),
    List.reverse_append, List.reverse_reverse]

/-- trimEnd over an append whose right part vanishes entirely. -/
theorem trimEnd_append_of_nil (s t : JsString) (h : trimEnd t = []) :
    trimEnd (s ++ t) = trimEnd s := by
  unfold trimEnd at *
  have h2 : t.reverse.dropWhile isJsWhitespace = [] := by
    have := congrArg List.reverse h
    simpa using this
  rw [List.reverse_append, dropWhile_append_of_nil isJsWhitespace t.reverse s.reverse h2]

/-- trimStart does not lengthen a string. -/
theorem length_trimStart_le (s : JsString) : (trimStart s).length ≤ s.length :=
  (List.dropWhile_sublist isJsWhitespace).length_le

/-- trimEnd does not lengthen a string. -/
theorem length_trimEnd_le (s : JsString) : (trimEnd s).length ≤ s.length := by
  unfold trimEnd
  rw [List.length_reverse]
  have := (List.dropWhile_sublist (l := s.reverse) isJsWhitespace).length_le
  simpa using this

/-- A whole-length dropWhile is the identity. -/
theorem dropWhile_eq_self_of_length {α : Type} (p : α → Bool) (l : List α)
    (h : (l.dropWhile p).length = l.length) : l.dropWhile p = l :=
  (List.dropWhile_sublist p).eq_of_length h

/-- A jsTrim-fixed string is fixed by both one-sided trims. -/
theorem jsTrim_fixed_parts (s : JsString) (h : jsTrim s = s) :
    trimStart s = s ∧ trimEnd s = s := by
  unfold jsTrim at h
  have h1 : (trimStart s).length ≤ s.length := length_trimStart_le s
  have h2 : (trimEnd (trimStart s)).length ≤ (trimStart s).length := length_trimEnd_le _
  have h3 : (trimEnd (trimStart s)).length = s.length := by rw [h]
  have h4 : (trimStart s).length = s.length := by omega
  have h5 : trimStart s = s := dropWhile_eq_self_of_length isJsWhitespace s h4
  rw [h5] at h
  exact ⟨h5, h⟩

/-- trimStart is idempotent. -/
theorem trimStart_idem (s : JsString) : trimStart (trimStart s) = trimStart s :=
  dropWhile_idem2 isJsWhitespace s

/-- trimEnd is idempotent. -/
theorem trimEnd_idem (s : JsString) : trimEnd (trimEnd s) = trimEnd s := by
  show (((s.reverse.dropWhile isJsWhitespace).reverse).reverse.dropWhile isJsWhitespace).reverse =
    (s.reverse.dropWhile isJsWhitespace).reverse
  rw [List.reverse_reverse, dropWhile_idem2]

/-- trimEnd yields a prefix of its argument. -/
theorem trimEnd_prefix (s : JsString) : ∃ u, trimEnd s ++ u = s := by
  refine ⟨(s.reverse.takeWhile isJsWhitespace).reverse, ?_⟩
  have hsplit := List.takeWhile_append_dropWhile isJsWhitespace s.reverse
  calc trimEnd s ++ (s.reverse.takeWhile isJsWhitespace).reverse
      = (s.reverse.takeWhile isJsWhitespace ++ s.reverse.dropWhile isJsWhitespace).reverse := by
        rw [List.reverse_append]
        rfl
    _ = s := by rw [hsplit, List.reverse_reverse]

/-- trimEnd of a trimStart-fixed string stays trimStart-fixed. -/
theorem trimStart_trimEnd_of_fixed (s : JsString) (h : trimStart s = s) :
    trimStart (trimEnd s) = trimEnd s := by
  cases hte : trimEnd s with
  | nil => rfl
  | cons c t =>
    obtain ⟨u, hu⟩ := trimEnd_prefix s
    rw [hte] at hu
    have hdw : s.dropWhile isJsWhitespace = c :: (t ++ u) := by
      have hs : s = c :: (t ++ u) := by
        rw [← hu]
        simp
      calc s.dropWhile isJsWhitespace = s := h
        _ = c :: (t ++ u) := hs
    have hc := dropWhile_head_not isJsWhitespace s c (t ++ u) hdw
    unfold trimStart
    rw [List.dropWhile_cons, if_neg]
    simp [hc]

/-- jsTrim is idempotent. -/
theorem jsTrim_idem (s : JsString) : jsTrim (jsTrim s) = jsTrim s := by
  unfold jsTrim
  rw [trimStart_trimEnd_of_fixed (trimStart s) (trimStart_idem s), trimEnd_idem]

/-- jsTrim vanishes exactly on all-whitespace strings. -/
theorem jsTrim_eq_nil_iff (s : JsString) :
    jsTrim s = [] ↔ ∀ c ∈ s, isJsWhitespace c = true := by
  constructor
  · intro h
    have h2 : (s.dropWhile isJsWhitespace).reverse.dropWhile isJsWhitespace = [] := by
      have := congrArg List.reverse h
      simpa [jsTrim, trimEnd, trimStart] using this
    rw [List.dropWhile_eq_nil_iff] at h2
    intro c hc
    have hsplit := List.takeWhile_append_dropWhile isJsWhitespace s
    rw [← hsplit] at hc
    rcases List.mem_append.mp hc with h3 | h3
    · exact List.mem_takeWhile_imp h3
    · exact h2 c (List.mem_reverse.mpr h3)
  · intro h
    have hnil : s.dropWhile isJsWhitespace = [] := List.dropWhile_eq_nil_iff.mpr h
    show trimEnd (trimStart s) = []
    unfold trimStart
    rw [hnil]
    rfl

/-- jsTrim survives exactly when some character is not whitespace. -/
theorem jsTrim_ne_nil_iff (s : JsString) :
    jsTrim s ≠ [] ↔ ∃ c ∈ s, isJsWhitespace c = false := by
  constructor
  · intro h
    by_contra hcon
    push_neg at hcon
    refine h ((jsTrim_eq_nil_iff s).mpr ?_)
    intro c hc
    have := hcon c hc
    simpa using this
  · rintro ⟨c, hc, hcf⟩ hall
    have := (jsTrim_eq_nil_iff s).mp hall c hc
    rw [this] at hcf
    cases hcf

/-- joinLines on a cons with a nonempty tail. -/
theorem joinLines_cons (s : JsString) (L : List JsString) (h : L ≠ []) :
    joinLines (s :: L) = s ++ '\n' :: joinLines L := by
  cases L with
  | nil => exact absurd rfl h
  | cons s2 L2 => rfl

/-- joinLines of a cons with a nonempty head is nonempty. -/
theorem joinLines_ne_nil (s : JsString) (L : List JsString) (hs : s ≠ []) :
    joinLines (s :: L) ≠ [] := by
  cases L with
  | nil => simpa [joinLines] using hs
  | cons s2 L2 => simp [joinLines]

/-- concatLines on nil. -/
theorem concatLines_nil : concatLines [] = [] := rfl

/-- concatLines on a cons. -/
theorem concatLines_cons (s : JsString) (L : List JsString) :
    concatLines (s :: L) = (s ++ ['\n']) ++ concatLines L := by
  simp [concatLines]

/-- Trimming the newline-terminated concatenation of trim-fixed nonempty
texts yields their newline-joined concatenation. -/
theorem jsTrim_concatLines (L : List JsString)
    (h : ∀ s ∈ L, jsTrim s = s ∧ s ≠ []) : jsTrim (concatLines L) = joinLines L := by
  induction L with
  | nil => rfl
  | cons s L2 ih =>
    obtain ⟨hsfix, hsne⟩ := h s (List.mem_cons_self s L2)
    obtain ⟨hts, hte⟩ := jsTrim_fixed_parts s hsfix
    have hL2 : ∀ t ∈ L2, jsTrim t = t ∧ t ≠ [] := fun t ht => h t (List.mem_cons_of_mem s ht)
    cases L2 with
    | nil =>
      rw [concatLines_cons, concatLines_nil, List.append_nil]
      unfold jsTrim
      rw [trimStart_append_of_fixed s ['\n'] hts hsne,
        trimEnd_append_of_nil s ['\n'] (by decide), hte]
      rfl
    | cons s2 L2a =>
      obtain ⟨hs2fix, hs2ne⟩ := hL2 s2 (List.mem_cons_self s2 L2a)
      obtain ⟨hts2, _⟩ := jsTrim_fixed_parts s2 hs2fix
      have htsrest : trimStart (concatLines (s2 :: L2a)) = concatLines (s2 :: L2a) := by
        rw [concatLines_cons,
          show (s2 ++ ['\n']) ++ concatLines L2a = s2 ++ (['\n'] ++ concatLines L2a) from by simp]
        exact trimStart_append_of_fixed s2 _ hts2 hs2ne
      have hih := ih hL2
      have hteq : trimEnd (concatLines (s2 :: L2a)) = joinLines (s2 :: L2a) := by
        unfold jsTrim at hih
        rw [htsrest] at hih
        exact hih
      have hjne : joinLines (s2 :: L2a) ≠ [] := joinLines_ne_nil s2 L2a hs2ne
      rw [concatLines_cons]
      unfold jsTrim
      rw [show (s ++ ['\n']) ++ concatLines (s2 :: L2a) =
          s ++ (['\n'] ++ concatLines (s2 :: L2a)) from by simp]
      rw [trimStart_append_of_fixed s _ hts hsne]
      rw [show s ++ (['\n'] ++ concatLines (s2 :: L2a)) =
          (s ++ ['\n']) ++ concatLines (s2 :: L2a) from by simp]
      rw [trimEnd_append_of_ne_nil (s ++ ['\n']) (concatLines (s2 :: L2a))
        (by rw [hteq]; exact hjne)]
      rw [hteq, joinLines_cons s (s2 :: L2a) (by simp)]
      simp

/-- The scan of getCommentGapIndex returns one past the first position of
the distance list whose entry exceeds one. -/
theorem gapAux_eq_findIdx (nodeStart : Nat) (l : List CommentRange) :
    ∀ i : Nat, getCommentGapIndexAux nodeStart l i =
      ((gapDistances nodeStart l).findIdx? (fun d => decide (1 < d))).map (fun k => i + k + 1) := by
  induction l with
  | nil => intro i; rfl
  | cons c1 rest ih =>
    intro i
    cases rest with
    | nil =>
      simp only [getCommentGapIndexAux, gapDistances]
      by_cases hgap : 1 < (nodeStart : Int) - (c1.endPos : Int)
      · rw [if_pos hgap, List.findIdx?_cons]
        simp [hgap]
      · rw [if_neg hgap, List.findIdx?_cons]
        simp [hgap]
    | cons c2 rest2 =>
      simp only [getCommentGapIndexAux, gapDistances]
      by_cases hgap : 1 < (c2.pos : Int) - (c1.endPos : Int)
      · rw [if_pos hgap, List.findIdx?_cons]
        simp [hgap]
      · rw [if_neg hgap, ih (i + 1), List.findIdx?_cons]
        rw [if_neg (by simpa using hgap), List.findIdx?_succ]
        cases hf : (gapDistances nodeStart (c2 :: rest2)).findIdx? (fun d => decide (1 < d)) with
        | none => simp [hf]
        | some k => simp [hf, Nat.add_assoc, Nat.add_comm, Nat.add_left_comm]

/-- getCommentGapIndex computes the specification-side gap index. -/
theorem getCommentGapIndex_eq_spec (node : Node) :
    getCommentGapIndex node = specGapIndex node := by
  unfold getCommentGapIndex specGapIndex
  rw [gapAux_eq_findIdx node.start node.leadingCommentRanges 0]
  cases hf : (gapDistances node.start node.leadingCommentRanges).findIdx?
      (fun d => decide (1 < d)) with
  | none => rfl
  | some k => simp

/-- The gap scan never points past the comment list. -/
theorem gapAux_le (nodeStart : Nat) (l : List CommentRange) :
    ∀ i g : Nat, getCommentGapIndexAux nodeStart l i = some g → g ≤ i + l.length := by
  induction l with
  | nil => intro i g h; simp [getCommentGapIndexAux] at h
  | cons c1 rest ih =>
    intro i g h
    cases rest with
    | nil =>
      simp only [getCommentGapIndexAux] at h
      by_cases hgap : 1 < (nodeStart : Int) - (c1.endPos : Int)
      · rw [if_pos hgap] at h
        injection h with h1
        simp [← h1]
      · rw [if_neg hgap] at h
        cases h
    | cons c2 rest2 =>
      simp only [getCommentGapIndexAux] at h
      by_cases hgap : 1 < (c2.pos : Int) - (c1.endPos : Int)
      · rw [if_pos hgap] at h
        injection h with h1
        simp [← h1]
      · rw [if_neg hgap] at h
        have := ih (i + 1) g h
        simp only [List.length_cons] at *
        omega

/-- The gap index is at most the number of leading comments. -/
theorem getCommentGapIndex_le (node : Node) :
    getCommentGapIndex node ≤ node.leadingCommentRanges.length := by
  unfold getCommentGapIndex
  cases h : getCommentGapIndexAux node.start node.leadingCommentRanges 0 with
  | none => simp
  | some g => simpa using gapAux_le node.start node.leadingCommentRanges 0 g h

/-- splitToHeaderAndRest for a first node with leading comments, expressed
through the per-index texts split at the gap index. -/
theorem splitToHeaderAndRest_cons (node : Node) (c0 : CommentRange) (crest : List CommentRange)
    (hcr : node.leadingCommentRanges = c0 :: crest) :
    splitToHeaderAndRest node true =
      (jsTrim (concatLines (((commentLoopTexts node ++ [node.text]).map jsTrim).take
          (getCommentGapIndex node))),
        jsTrim (concatLines (((commentLoopTexts node ++ [node.text]).map jsTrim).drop
          (getCommentGapIndex node)))) := by
  unfold splitToHeaderAndRest
  rw [if_pos rfl, hcr]

/-- C6: splitToHeaderAndRest returns an empty header and the full trimmed
node text for every node that is not the first in the file; for the first
node the gap index is the first position, scanning forward, whose distance
between a comment end offset and the next comment (or node) start offset
exceeds one character; the trimmed comments before the gap index form the
header and the remaining trimmed comments plus the node text form the rest,
each newline-joined. -/
theorem C6_split_header_rest (node : Node) :
    (splitToHeaderAndRest node false = ([], jsTrim node.fullText)) ∧
    (getCommentGapIndex node = specGapIndex node) ∧
    (∀ (c0 : CommentRange) (crest : List CommentRange),
      node.leadingCommentRanges = c0 :: crest →
      jsTrim (jsSubstring node.fullText (node.pos : Int)
          ((c0.endPos : Int) - (node.pos : Int))) = jsTrim c0.text →
      (∀ c ∈ node.leadingCommentRanges, jsTrim c.text ≠ []) →
      jsTrim node.text ≠ [] →
      splitToHeaderAndRest node true =
        (joinLines (((node.leadingCommentRanges.map (fun c => c.text)).take
            (getCommentGapIndex node)).map jsTrim),
          joinLines ((((node.leadingCommentRanges.map (fun c => c.text)).drop
            (getCommentGapIndex node)).map jsTrim) ++ [jsTrim node.text]))) := by
  refine ⟨rfl, getCommentGapIndex_eq_spec node, ?_⟩
  intro c0 crest hcr hc0 hcne htne
  rw [splitToHeaderAndRest_cons node c0 crest hcr]
  have htexts : (commentLoopTexts node ++ [node.text]).map jsTrim =
      ((node.leadingCommentRanges.map (fun c => c.text)).map jsTrim) ++ [jsTrim node.text] := by
    simp only [commentLoopTexts, hcr]
    simp [hc0, List.map_map]
  rw [htexts]
  have hgaple : getCommentGapIndex node ≤
      ((node.leadingCommentRanges.map (fun c => c.text)).map jsTrim).length := by
    simpa using getCommentGapIndex_le node
  rw [List.take_append_of_le_length hgaple, List.drop_append_of_le_length hgaple]
  have hA : ∀ t ∈ (node.leadingCommentRanges.map (fun c => c.text)).map jsTrim,
      jsTrim t = t ∧ t ≠ [] := by
    intro t ht
    rw [List.map_map, List.mem_map] at ht
    obtain ⟨c, hc, hct⟩ := ht
    rw [← hct]
    exact ⟨jsTrim_idem c.text, hcne c hc⟩
  rw [jsTrim_concatLines _ (fun t ht => hA t (List.take_subset _ _ ht))]
  rw [jsTrim_concatLines]
  · rw [List.map_take, List.map_drop]
  · intro t ht
    rcases List.mem_append.mp ht with h1 | h1
    · exact hA t (List.drop_subset _ _ h1)
    · rw [List.mem_singleton] at h1
      rw [h1]
      exact ⟨jsTrim_idem node.text, htne⟩

/-- Witness for C6 at a concrete first node with two leading comments
separated by a blank line. -/
theorem C6_split_header_rest_witness :
    splitToHeaderAndRest exampleNode true =
      (joinLines (((exampleNode.leadingCommentRanges.map (fun c => c.text)).take
          (getCommentGapIndex exampleNode)).map jsTrim),
        joinLines ((((exampleNode.leadingCommentRanges.map (fun c => c.text)).drop
          (getCommentGapIndex exampleNode)).map jsTrim) ++ [jsTrim exampleNode.text])) :=
  (C6_split_header_rest exampleNode).2.2
    { pos := 0, endPos := 4, text := "// a".toList }
    [{ pos := 6, endPos := 10, text := "// b".toList }]
    rfl (by decide) (by decide) (by decide)

/-- Elements emitted by the generator loop always carry nonempty text. -/
theorem getElementsAux_text_ne (nodes : List Node) :
    ∀ (b : Bool) (element : Element), element ∈ getElementsAux b nodes → element.text ≠ [] := by
  induction nodes with
  | nil => intro b element h; simp [getElementsAux] at h
  | cons node rest ih =>
    intro b element h
    rw [getElementsAux] at h
    rcases List.mem_append.mp h with h1 | h1
    · simp only [elementsOfNode] at h1
      rcases List.mem_append.mp h1 with h2 | h2
      · by_cases hh : 0 < (splitToHeaderAndRest node b).1.length
        · rw [if_pos hh, List.mem_singleton] at h2
          rw [h2]
          simpa [headerElement] using List.ne_nil_of_length_pos hh
        · rw [if_neg hh] at h2
          simp at h2
      · by_cases hh : 0 < (splitToHeaderAndRest node b).2.length
        · rw [if_pos hh, List.mem_singleton] at h2
          rw [h2]
          simpa [contentElement] using List.ne_nil_of_length_pos hh
        · rw [if_neg hh] at h2
          simp at h2
    · exact ih false element h1

/-- The rest component of the splitter is nonempty for a node whose text
and full text do not trim away entirely. -/
theorem rest_component_ne_nil (node : Node) (isFirstNode : Bool)
    (htext : jsTrim node.text ≠ []) (hfull : jsTrim node.fullText ≠ []) :
    (splitToHeaderAndRest node isFirstNode).2 ≠ [] := by
  cases isFirstNode with
  | false => simpa [splitToHeaderAndRest] using hfull
  | true =>
    cases hcr : node.leadingCommentRanges with
    | nil =>
      by_cases htr : 0 < node.leadingTriviaWidth
      · simpa [splitToHeaderAndRest, hcr, htr] using htext
      · simpa [splitToHeaderAndRest, hcr, htr] using hfull
    | cons c0 crest =>
      rw [splitToHeaderAndRest_cons node c0 crest hcr]
      have h2 : jsTrim (jsTrim node.text) ≠ [] := by
        rw [jsTrim_idem]
        exact htext
      obtain ⟨c, hcmem, hcw⟩ := (jsTrim_ne_nil_iff (jsTrim node.text)).mp h2
      have hlen : ((commentLoopTexts node).map jsTrim).length =
          node.leadingCommentRanges.length := by
        simp [commentLoopTexts, hcr]
      have hmem : jsTrim node.text ∈
          ((commentLoopTexts node ++ [node.text]).map jsTrim).drop (getCommentGapIndex node) := by
        rw [List.map_append]
        rw [List.drop_append_of_le_length (by rw [hlen]; exact getCommentGapIndex_le node)]
        exact List.mem_append_right _ (List.mem_singleton.mpr rfl)
      have hcin : c ∈ concatLines
          (((commentLoopTexts node ++ [node.text]).map jsTrim).drop (getCommentGapIndex node)) := by
        unfold concatLines
        rw [List.mem_flatten]
        exact ⟨jsTrim node.text ++ ['\n'],
          List.mem_map.mpr ⟨jsTrim node.text, hmem, rfl⟩,
          List.mem_append_left _ hcmem⟩
      exact (jsTrim_ne_nil_iff _).mpr ⟨c, hcin, hcw⟩

/-- C7: every Element produced by getElements has nonempty text, and a node
whose text and full text survive trimming yields exactly one content
Element, preceded by one Header element exactly when the header component
is nonempty, so each node maps to one or two Elements. -/
theorem C7_getElements_shape :
    (∀ (nodes : List Node) (element : Element), element ∈ getElements nodes → element.text ≠ []) ∧
    (∀ (node : Node) (isFirstNode : Bool),
      jsTrim node.text ≠ [] → jsTrim node.fullText ≠ [] →
      elementsOfNode node isFirstNode =
        (if 0 < (splitToHeaderAndRest node isFirstNode).1.length
          then [headerElement (splitToHeaderAndRest node isFirstNode).1] else []) ++
          [contentElement node (splitToHeaderAndRest node isFirstNode).2] ∧
      (elementsOfNode node isFirstNode).length =
        (if 0 < (splitToHeaderAndRest node isFirstNode).1.length then 2 else 1)) := by
  constructor
  · intro nodes element h
    exact getElementsAux_text_ne nodes true element h
  · intro node isFirstNode htext hfull
    have hrest := rest_component_ne_nil node isFirstNode htext hfull
    have hrlen : 0 < (splitToHeaderAndRest node isFirstNode).2.length :=
      List.length_pos.mpr hrest
    constructor
    · simp only [elementsOfNode]
      rw [if_pos hrlen]
    · simp only [elementsOfNode]
      rw [if_pos hrlen]
      by_cases hh : 0 < (splitToHeaderAndRest node isFirstNode).1.length
      · rw [if_pos hh, if_pos hh]
        rfl
      · rw [if_neg hh, if_neg hh]
        rfl

/-- Witness for C7 at a concrete first node with a detachable header. -/
theorem C7_getElements_shape_witness :
    elementsOfNode exampleNode true =
      (if 0 < (splitToHeaderAndRest exampleNode true).1.length
        then [headerElement (splitToHeaderAndRest exampleNode true).1] else []) ++
        [contentElement exampleNode (splitToHeaderAndRest exampleNode true).2] ∧
    (elementsOfNode exampleNode true).length =
      (if 0 < (splitToHeaderAndRest exampleNode true).1.length then 2 else 1) :=
  C7_getElements_shape.2 exampleNode true (by decide) (by decide)

end TsCodeLayout
